import Mathlib

/-!
Verification of the LazyScheduler admission-control scheduler
(`torch/_lazy_scheduler/lazy_scheduler.py`).

The development embeds, as executable Lean functions over explicit state:

* the asynchronous handle (`AsyncFuncHandle.schedule`,
  `AsyncFuncHandle.wait_for_completion`),
* the scheduler core walk (`LazyScheduler.maybe_run`),
* the execution recorder (`LazyScheduler.record_execution`,
  `LazyScheduler.get_recorded_execution_order`),
* the diagnostics (`LazyScheduler.debug`,
  `find_delayed_seg_dependencies_best_effort`).

Handles and placeholders (`AsyncTensor`s) are identified by natural-number
ids; graph modules by an id (Python object identity) together with the
string form of their graph (`str(g.graph)`), which is what `maybe_run`
compares as a structural fingerprint.
-/

namespace TorchLazy

/-- An input argument of a handle: either an already-concrete tensor, or a
placeholder (`AsyncTensor`) identified by a placeholder id. -/
inductive Arg where
  | concrete
  | placeholder (p : Nat)
deriving DecidableEq

/-- Static description of one `AsyncFuncHandle`: its input arguments
(`self.args`), the ids of the placeholder outputs (`self.outs_async`) it
owns, and its segment name. -/
structure HandleInfo where
  args : List Arg
  outs : List Nat
  segment_name : String

/-- The population of handles and the owning handle of every placeholder
(`AsyncTensor.set_handle` in `AsyncFuncHandle.__init__`). -/
structure Env where
  handles : Nat → HandleInfo
  owner : Nat → Nat

/-- Well-formedness: every placeholder appears among the outputs of its owning
handle. In the source, `AsyncFuncHandle.__init__` calls
`out_async.set_handle(self)` exactly on the `outs_async` tuple it allocated,
so a placeholder's handle always lists it among its outputs. -/
def Env.wf (env : Env) : Prop :=
  ∀ p, p ∈ (env.handles (env.owner p)).outs

/-- Dynamic execution state: per handle, whether the completion token
(`self.cuda_event`) exists, how many times the wrapped callable has run, and
whether `self.outs` has been written; per placeholder, whether it is
materialized; the scheduler's `_recorded_execution_order`; and a monitor bit
`violation` that is set at the instant a wrapped callable runs while one of
its placeholder arguments is not yet materialized. -/
structure SchedState where
  event : Nat → Bool
  execCount : Nat → Nat
  outsSet : Nat → Bool
  materialized : Nat → Bool
  record : List String
  violation : Bool

/-- The state at the start of a run: no completion tokens, no executions, no
materialized placeholders, empty execution record. -/
def initState : SchedState :=
  { event := fun _ => false
    execCount := fun _ => 0
    outsSet := fun _ => false
    materialized := fun _ => false
    record := []
    violation := false }

/-- `LazyScheduler.record_execution`: append `segment_name` to the recorded
execution order, unless it equals the record's current last entry. -/
def record_execution (rec : List String) (segment_name : String) : List String :=
  if rec.getLast? = some segment_name then rec else rec ++ [segment_name]

/-- Materialize every placeholder output of a handle (the
`out_async.materialize_with_value(...)` loop of `wait_for_completion`). -/
def materializeOuts (outs : List Nat) (s : SchedState) : SchedState :=
  { s with materialized := fun p => if p ∈ outs then true else s.materialized p }

/-- `AsyncFuncHandle.wait_for_completion`: raises (`false`) when no completion
token exists yet (`self.cuda_event is None`); crashes (`false`) when
`self.outs` was never written (iterating `zip(None, ...)`); otherwise
materializes every placeholder output of the handle and succeeds. -/
def wait_for_completion (env : Env) (h : Nat) (s : SchedState) : SchedState × Bool :=
  if s.event h = false then (s, false)
  else if s.outsSet h = false then (s, false)
  else (materializeOuts (env.handles h).outs s, true)

/-- Every placeholder among the arguments of handle `h` is materialized. -/
def argsMaterialized (env : Env) (h : Nat) (s : SchedState) : Bool :=
  (env.handles h).args.all fun a =>
    match a with
    | .concrete => true
    | .placeholder p => s.materialized p

mutual

/-- `AsyncFuncHandle.schedule`: if the completion token already exists, return
without any change (the re-entrant no-op); otherwise create the token, wait
until every placeholder argument is materialized, record the segment name in
the execution record, run the wrapped callable (counted in `execCount`, with
the `violation` monitor checked at that instant), and write `self.outs`.
`fuel` bounds the recursion depth of the model; exhaustion returns `false`
(no terminating Python execution corresponds to that branch). -/
def schedule (env : Env) (fuel : Nat) (h : Nat) (s : SchedState) : SchedState × Bool :=
  if s.event h then (s, true)
  else
    match fuel with
    | 0 => (s, false)
    | n + 1 =>
      let s1 : SchedState := { s with event := Function.update s.event h true }
      let r := wait_until_materialized env n (env.handles h).args s1
      if r.2 then
        let s2 := r.1
        let s3 : SchedState :=
          { s2 with record := record_execution s2.record (env.handles h).segment_name }
        ({ s3 with
            violation := s3.violation || !(argsMaterialized env h s3)
            execCount := Function.update s3.execCount h (s3.execCount h + 1)
            outsSet := Function.update s3.outsSet h true }, true)
      else (r.1, false)
termination_by (fuel, 0)

/-- Modelled from the spec: `AsyncTensor.wait_until_materialized` lives in
`torch/_subclasses/async_tensor.py`, which is not part of the sources here.
Per the spec it blocks until every placeholder among the arguments is
materialized, recursively triggering the owning handle's `schedule()` when it
is not already scheduled and then waiting for its completion (which is what
materializes the placeholder). Already-materialized or concrete arguments are
skipped. -/
def wait_until_materialized (env : Env) (fuel : Nat) (args : List Arg) (s : SchedState) :
    SchedState × Bool :=
  match args with
  | [] => (s, true)
  | a :: rest =>
    match fuel with
    | 0 => (s, false)
    | n + 1 =>
      match a with
      | .concrete => wait_until_materialized env n rest s
      | .placeholder p =>
        if s.materialized p then wait_until_materialized env n rest s
        else
          let r1 := schedule env n (env.owner p) s
          if r1.2 then
            let r2 := wait_for_completion env (env.owner p) r1.1
            if r2.2 then wait_until_materialized env n rest r2.1
            else (r2.1, false)
          else (r1.1, false)
termination_by (fuel, args.length + 1)

end

/-- A sequence of `schedule()` invocations, each with its own recursion fuel;
returns the final state (invocation outcomes are threaded through the state). -/
def scheduleSeq (env : Env) (calls : List (Nat × Nat)) (s : SchedState) : SchedState :=
  calls.foldl (fun t c => (schedule env c.1 c.2 t).1) s

/-- A traced graph instance: `gid` models Python object identity (the key of
`_gm_to_handle_map` and `_segment_to_gms_map` entries), `graphStr` models
`str(g.graph)`, the structural fingerprint that `maybe_run` compares. -/
structure Graph where
  gid : Nat
  graphStr : String
deriving DecidableEq

/-- The `LazyScheduler` bookkeeping read and written by `maybe_run`: the
immutable `_schedule`, the registry `_segment_to_gms_map` (an insertion-ordered
association list from segment name to graphs registered under it),
`_gm_to_handle_map` (graph id to handle id, insertion-ordered), and the
`_recorded_delayed` set of segment names. -/
structure SchedulerState where
  schedule : List String
  segment_to_gms_map : List (String × List Graph)
  gm_to_handle_map : List (Nat × Nat)
  recorded_delayed : List String
deriving DecidableEq

/-- The three loop variables of the admission walk in `maybe_run`:
`all_preceding_graph_handles`, `all_preceding_graph_handles_are_created` and
`reached_current_graph`. -/
structure WalkState where
  preceding : List Nat
  allCreated : Bool
  reached : Bool
deriving DecidableEq

/-- The inner `for g in self._segment_to_gms_map[_segment_name]` loop of
`maybe_run`: stop with `reached` on a fingerprint match, stop with
`allCreated := false` on a graph with no handle, otherwise accumulate the
graph's handle and continue. -/
def innerGmLoop (hmap : List (Nat × Nat)) (curFp : String) :
    List Graph → WalkState → WalkState
  | [], w => w
  | g :: rest, w =>
    if g.graphStr = curFp then { w with reached := true }
    else
      match hmap.lookup g.gid with
      | none => { w with allCreated := false }
      | some hd => innerGmLoop hmap curFp rest { w with preceding := w.preceding ++ [hd] }

/-- The outer `while _next_segment_index < len(self._schedule)` loop of
`maybe_run`: a scheduled segment absent from the registry sets
`allCreated := false`; otherwise the inner loop runs and the walk continues
only when the current graph was not reached and no handle was missing. -/
def walkLoop (registry : List (String × List Graph)) (hmap : List (Nat × Nat))
    (curFp : String) : List String → WalkState → WalkState
  | [], w => w
  | seg :: rest, w =>
    match registry.lookup seg with
    | none => { w with allCreated := false }
    | some gms =>
      let w2 := innerGmLoop hmap curFp gms w
      if w2.reached || !w2.allCreated then w2
      else walkLoop registry hmap curFp rest w2

/-- Handle retrieval or creation at the top of `maybe_run`: reuse the handle
stored in `_gm_to_handle_map`, or store a fresh one (`newHandleId` stands for
the identity of the freshly constructed `AsyncFuncHandle`). -/
def ensureHandle (newHandleId : Nat) (st : SchedulerState) (gm : Graph) :
    SchedulerState × Nat :=
  match st.gm_to_handle_map.lookup gm.gid with
  | some hd => (st, hd)
  | none =>
    ({ st with gm_to_handle_map := st.gm_to_handle_map ++ [(gm.gid, newHandleId)] },
      newHandleId)

/-- Result of `maybe_run`: the updated scheduler bookkeeping, the handles on
which `schedule()` is invoked in invocation order, whether the invocation was
deferred, and the handle whose placeholder outputs (`outs_async`) are
returned. -/
structure MaybeRunOut where
  st : SchedulerState
  calls : List Nat
  delayed : Bool
  output : Nat
deriving DecidableEq

/-- `LazyScheduler.maybe_run`: retrieve or create the current handle, run the
admission walk over the schedule from its start; on failure add the current
segment name to `_recorded_delayed` and schedule nothing; on success invoke
`schedule()` on every accumulated preceding handle in order and then on the
current handle. Either way the current handle's placeholder outputs are
returned. -/
def maybe_run (newHandleId : Nat) (st : SchedulerState) (gm : Graph)
    (cur_segment_name : String) : MaybeRunOut :=
  let e := ensureHandle newHandleId st gm
  let st1 := e.1
  let cur := e.2
  let w := walkLoop st1.segment_to_gms_map st1.gm_to_handle_map gm.graphStr
    st1.schedule ⟨[], true, false⟩
  if !w.allCreated then
    ⟨{ st1 with recorded_delayed := st1.recorded_delayed.insert cur_segment_name },
      [], true, cur⟩
  else
    ⟨st1, w.preceding ++ [cur], false, cur⟩

/-- `maybe_run` together with the `schedule()` calls its admitted branch
performs on the dynamic state (each call given recursion fuel `fuel`). -/
def maybe_run_exec (env : Env) (fuel : Nat) (newHandleId : Nat)
    (st : SchedulerState) (s : SchedState) (gm : Graph) (cur_segment_name : String) :
    MaybeRunOut × SchedState :=
  let r := maybe_run newHandleId st gm cur_segment_name
  (r, scheduleSeq env (r.calls.map fun hd => (fuel, hd)) s)

/-- Every handle registered under the scheduled segments, in schedule order
and, within one segment, registration order. -/
def allScheduledHandles (registry : List (String × List Graph))
    (hmap : List (Nat × Nat)) (sched : List String) : List Nat :=
  (sched.map fun seg =>
    ((registry.lookup seg).getD []).filterMap fun g => hmap.lookup g.gid).flatten

/-- Outcome of the admission walk as worded in the specification. -/
inductive AdmissionOutcome where
  | success (preceding : List Nat)
  | failure
deriving DecidableEq

/-- Verdict of the specification's examination of one scheduled segment's
registered graphs. -/
inductive GmScan where
  | reachedCur (acc : List Nat)
  | missingHandle
  | passed (acc : List Nat)
deriving DecidableEq

/-- Stated from the claim's words, not from the code: examine the graphs
registered under one scheduled segment in registration order; a graph
matching the current invocation by structural fingerprint stops the walk with
the previously accumulated handles; a graph with no handle stops the walk
with failure; any other graph's handle is accumulated as preceding. -/
def specScanGms (hmap : List (Nat × Nat)) (curFp : String) :
    List Graph → List Nat → GmScan
  | [], acc => .passed acc
  | g :: gs, acc =>
    if g.graphStr = curFp then .reachedCur acc
    else
      match hmap.lookup g.gid with
      | none => .missingHandle
      | some hd => specScanGms hmap curFp gs (acc ++ [hd])

/-- Stated from the claim's words, not from the code: walk the schedule from
its start; a scheduled segment with no registry entries fails admission and
stops the walk; otherwise its registered graphs are examined in registration
order, stopping with success or failure as `specScanGms` says, or continuing
with the extended accumulation. `none` means the walk reached the end of the
schedule without a verdict (a case the claim does not describe). -/
def specWalkSchedule (registry : List (String × List Graph))
    (hmap : List (Nat × Nat)) (curFp : String) :
    List String → List Nat → Option AdmissionOutcome
  | [], _ => none
  | seg :: rest, acc =>
    match registry.lookup seg with
    | none => some .failure
    | some gms =>
      match specScanGms hmap curFp gms acc with
      | .reachedCur acc' => some (.success acc')
      | .missingHandle => some .failure
      | .passed acc' => specWalkSchedule registry hmap curFp rest acc'

/-- Python's `s.startswith(pre)` as a test on character lists. -/
def listPre : List Char → List Char → Bool
  | [], _ => true
  | _ :: _, [] => false
  | c :: cs, d :: ds => c == d && listPre cs ds

/-- `LazyScheduler.get_recorded_execution_order`: the execution record with the
auto-generated segment names (those starting with `__unnamed_` or
`__unregistered_`) dropped. -/
def get_recorded_execution_order (rec : List String) : List String :=
  rec.filter fun s =>
    !(listPre "__unnamed_".data s.data) && !(listPre "__unregistered_".data s.data)

/-- Result of one pass of the
`for index, seg in reversed(list(enumerate(schedule)))` scan of
`find_delayed_seg_dependencies_best_effort`: `crash` models the `ValueError`
raised by `recorded_execution_order.index(seg)` when `seg` is absent;
`found seg idx k` models the `break` taken when
`index_of_seg_in_execution_order = idx` is smaller than the schedule position
`k`. -/
inductive ScanResult where
  | crash
  | nothingFound
  | found (seg : String) (idx : Nat) (k : Nat)
deriving DecidableEq

/-- The reversed scan, examining schedule positions `k-1`, `k-2`, ..., `0`. -/
def scanDown (order schedule : List String) : Nat → ScanResult
  | 0 => .nothingFound
  | k + 1 =>
    let seg := schedule.getD k ""
    if seg ∈ order then
      if order.indexOf seg < k then .found seg (order.indexOf seg) k
      else scanDown order schedule k
    else .crash

/-- One full pass of the reversed scan over the whole schedule. -/
def scanRev (order schedule : List String) : ScanResult :=
  scanDown order schedule schedule.length

/-- Result of the while-loop of `find_delayed_seg_dependencies_best_effort`:
`done` carries the collected `dependencies` in insertion order; `divergent`
marks the case in which the scan finds no early-executed segment while the
lists still differ — the loop body then performs no mutation at all, so the
source repeats an identical state forever and never terminates; `error` marks
the `IndexError` of `recorded_execution_order[idx + 1]` and the `ValueError`
of `list.remove` on an absent element. -/
inductive BEResult where
  | done (deps : List (String × Option String × String))
  | divergent
  | error
deriving DecidableEq

/-- The while-loop of `find_delayed_seg_dependencies_best_effort`: while the
residual schedule differs from the residual execution order, scan from the
end for a segment executed earlier than its scheduled position, hypothesize
that the segment recorded immediately after it depends on its output, and
remove both names from both lists. -/
def bestEffortAux (schedule order : List String)
    (deps : List (String × Option String × String)) : BEResult :=
  if schedule = order then .done deps
  else
    match scanRev order schedule with
    | .crash => .error
    | .nothingFound => .divergent
    | .found seg idx _k =>
      match order[idx + 1]? with
      | none => .error
      | some dep_seg =>
        let dep_seg_prev : Option String := if 1 ≤ idx then order[idx - 1]? else none
        if hs : seg ∈ schedule then
          if hd : dep_seg ∈ schedule.erase seg then
            if seg ∈ order then
              if dep_seg ∈ order.erase seg then
                bestEffortAux ((schedule.erase seg).erase dep_seg)
                  ((order.erase seg).erase dep_seg)
                  (deps ++ [(seg, dep_seg_prev, dep_seg)])
              else .error
            else .error
          else .error
        else .error
termination_by schedule.length
decreasing_by
  have h2 := List.length_erase_of_mem hs
  have h3 := List.length_erase_of_mem hd
  have h4 := List.length_pos_of_mem hs
  omega

/-- `find_delayed_seg_dependencies_best_effort`: asserts that the two lists
have equal length (an `AssertionError`, modelled as `error`, otherwise), then
runs the reverse-scan removal loop. -/
def find_delayed_seg_dependencies_best_effort
    (schedule_orig recorded_execution_order_orig : List String) : BEResult :=
  if schedule_orig.length = recorded_execution_order_orig.length then
    bestEffortAux schedule_orig recorded_execution_order_orig []
  else .error

/-- What `LazyScheduler.debug` raises: the fatal schedule/execution mismatch
report, the debug-mode report (with or without an order-violation issue
section), or nothing at all because `find_delayed_seg_dependencies_best_effort`
diverges (`divergent`) or crashes (`error`). -/
inductive DebugOutcome where
  | mismatchReport
  | debugReport (orderIssue : Bool)
  | divergent
  | error
deriving DecidableEq

/-- Python's `set(a) == set(b)`, decidably. -/
def sameSet (a b : List String) : Bool :=
  a.all (fun x => b.contains x) && b.all (fun x => a.contains x)

/-- `LazyScheduler.debug`: raise the fatal mismatch report when the schedule
and the filtered execution record differ in length or as sets; otherwise,
when they differ as sequences, run the best-effort dependency scan and raise
the debug report with an issue section; when they are equal, raise the debug
report with no issue section. -/
def debug (schedule rec : List String) : DebugOutcome :=
  let order := get_recorded_execution_order rec
  if schedule.length ≠ order.length ∨ sameSet schedule order = false then
    .mismatchReport
  else if schedule ≠ order then
    match find_delayed_seg_dependencies_best_effort schedule order with
    | .done _ => .debugReport true
    | .divergent => .divergent
    | .error => .error
  else .debugReport false

/-- Monotone facts about the dynamic state: completion tokens, written
outputs and materialized placeholders are never cleared. -/
def Mono (s t : SchedState) : Prop :=
  (∀ h, s.event h = true → t.event h = true) ∧
  (∀ h, s.outsSet h = true → t.outsSet h = true) ∧
  (∀ p, s.materialized p = true → t.materialized p = true)

/-- Each handle's wrapped callable has run at most once, and never before its
completion token was created. -/
def AtMostOnce (s : SchedState) : Prop :=
  ∀ h, s.execCount h ≤ 1 ∧ (s.event h = false → s.execCount h = 0)

/-- A concrete two-handle environment used by witnesses: handle `0` takes
placeholder `1` (owned by handle `1`) as its argument; every placeholder `p`
is owned by handle `p`, which lists it among its outputs. -/
def envW : Env :=
  { handles := fun h =>
      if h = 0 then ⟨[Arg.placeholder 1], [0], "seg0_fwd"⟩ else ⟨[], [h], "seg1_fwd"⟩
    owner := fun p => p }

/-- A concrete graph instance used by witnesses. -/
def gmW : Graph := ⟨1, "gB"⟩

/-- A concrete scheduler state used by witnesses: two scheduled segments, the
first fully registered with handle `10`, the second registered with `gmW`. -/
def stW : SchedulerState :=
  ⟨["A_fwd", "B_fwd"], [("A_fwd", [⟨0, "gA"⟩]), ("B_fwd", [gmW])], [(0, 10)], []⟩

/-- A concrete scheduler state used by witnesses: one scheduled segment, fully
registered with handle `10`, whose only graph does not match `gmW`. -/
def stX : SchedulerState :=
  ⟨["A_fwd"], [("A_fwd", [⟨0, "gA"⟩])], [(0, 10)], []⟩

theorem envW_wf : envW.wf := by
  intro p
  by_cases hp : p = 0 <;> simp [envW, Env.wf, hp]

theorem record_execution_chain (rec : List String) (segment_name : String)
    (h : List.Chain' (· ≠ ·) rec) :
    List.Chain' (· ≠ ·) (record_execution rec segment_name) := by
  unfold record_execution
  split
  · exact h
  · next hlast =>
    rw [List.chain'_append]
    refine ⟨h, List.chain'_singleton _, ?_⟩
    intro x hx y hy
    simp only [List.head?_cons, Option.mem_def, Option.some.injEq] at hy
    subst hy
    intro hxy
    subst hxy
    exact hlast hx

/-- C9: `record_execution(name)` appends `name` to the execution record unless
it equals the record's current last entry, so after any sequence of
`record_execution` calls starting from the empty record, the execution record
never contains two identical adjacent entries. -/
theorem record_execution_no_adjacent_duplicates (names : List String) :
    List.Chain' (· ≠ ·) (names.foldl record_execution []) := by
  have aux : ∀ (ns : List String) (rec : List String), List.Chain' (· ≠ ·) rec →
      List.Chain' (· ≠ ·) (ns.foldl record_execution rec) := by
    intro ns
    induction ns with
    | nil => intro rec h; exact h
    | cons n ns ih =>
      intro rec h
      exact ih _ (record_execution_chain rec n h)
  exact aux names [] List.chain'_nil

/-- C5: calling `wait_for_completion()` on a handle whose completion token is
absent (before `schedule()` has run on it) raises the protocol error and
returns the state unchanged: no placeholder output is materialized. -/
theorem wait_for_completion_before_schedule (env : Env) (h : Nat) (s : SchedState)
    (hev : s.event h = false) : wait_for_completion env h s = (s, false) := by
  unfold wait_for_completion
  rw [hev]
  simp

theorem wait_for_completion_before_schedule_witness :
    initState.event 0 = false ∧ wait_for_completion envW 0 initState = (initState, false) :=
  ⟨rfl, wait_for_completion_before_schedule envW 0 initState rfl⟩

theorem sameSet_iff (a b : List String) :
    sameSet a b = true ↔ (∀ x, x ∈ a ↔ x ∈ b) := by
  simp only [sameSet, Bool.and_eq_true, List.all_eq_true, List.elem_iff]
  constructor
  · rintro ⟨h1, h2⟩ x
    exact ⟨fun hx => h1 x hx, fun hx => h2 x hx⟩
  · intro h
    exact ⟨fun x hx => (h x).1 hx, fun x hx => (h x).2 hx⟩

/-- C6: `debug()` raises the fatal schedule/execution mismatch report whenever
the configured schedule and the filtered execution record differ in length or
differ as sets. -/
theorem debug_mismatch_report (schedule rec : List String)
    (h : schedule.length ≠ (get_recorded_execution_order rec).length ∨
      ¬ (∀ x, x ∈ schedule ↔ x ∈ get_recorded_execution_order rec)) :
    debug schedule rec = .mismatchReport := by
  unfold debug
  rcases h with h | h
  · rw [if_pos (Or.inl h)]
  · have hss : sameSet schedule (get_recorded_execution_order rec) = false := by
      cases hb : sameSet schedule (get_recorded_execution_order rec) with
      | false => rfl
      | true => exact absurd ((sameSet_iff _ _).1 hb) h
    rw [if_pos (Or.inr hss)]

theorem debug_mismatch_report_witness :
    (["A"].length ≠ (get_recorded_execution_order []).length ∨
      ¬ (∀ x, x ∈ ["A"] ↔ x ∈ get_recorded_execution_order [])) ∧
    debug ["A"] [] = .mismatchReport :=
  ⟨Or.inl (by decide), debug_mismatch_report ["A"] [] (Or.inl (by decide))⟩

theorem ensureHandle_recorded_delayed (newHandleId : Nat) (st : SchedulerState)
    (gm : Graph) : (ensureHandle newHandleId st gm).1.recorded_delayed = st.recorded_delayed := by
  unfold ensureHandle
  cases st.gm_to_handle_map.lookup gm.gid <;> rfl

/-- C4: when admission fails, `maybe_run` adds the current segment name to the
delayed set, performs no `schedule()` call, leaves the dynamic state (and in
particular the execution record and every execution count) untouched, and
returns the current handle's placeholder outputs; the deferral path raises
nothing. -/
theorem maybe_run_deferral_frame (env : Env) (fuel newHandleId : Nat)
    (st : SchedulerState) (s : SchedState) (gm : Graph) (cur_segment_name : String)
    (hdel : (maybe_run newHandleId st gm cur_segment_name).delayed = true) :
    (maybe_run newHandleId st gm cur_segment_name).calls = [] ∧
    (maybe_run newHandleId st gm cur_segment_name).st.recorded_delayed =
      st.recorded_delayed.insert cur_segment_name ∧
    (maybe_run newHandleId st gm cur_segment_name).output =
      (ensureHandle newHandleId st gm).2 ∧
    (maybe_run_exec env fuel newHandleId st s gm cur_segment_name).2 = s := by
  simp only [maybe_run] at hdel ⊢
  split at hdel
  · next hcond =>
    simp only [maybe_run_exec, maybe_run]
    rw [if_pos hcond]
    refine ⟨rfl, ?_, rfl, ?_⟩
    · simp [ensureHandle_recorded_delayed]
    · simp [scheduleSeq]
  · simp at hdel

theorem maybe_run_deferral_frame_witness :
    (maybe_run 11 ⟨["A_fwd"], [], [], []⟩ ⟨1, "gB"⟩ "B_fwd").delayed = true ∧
    ((maybe_run 11 ⟨["A_fwd"], [], [], []⟩ ⟨1, "gB"⟩ "B_fwd").calls = [] ∧
      (maybe_run 11 ⟨["A_fwd"], [], [], []⟩ ⟨1, "gB"⟩ "B_fwd").st.recorded_delayed =
        List.insert "B_fwd" [] ∧
      (maybe_run 11 ⟨["A_fwd"], [], [], []⟩ ⟨1, "gB"⟩ "B_fwd").output =
        (ensureHandle 11 ⟨["A_fwd"], [], [], []⟩ ⟨1, "gB"⟩).2 ∧
      (maybe_run_exec envW 3 11 ⟨["A_fwd"], [], [], []⟩ initState ⟨1, "gB"⟩ "B_fwd").2 =
        initState) :=
  ⟨by decide,
    maybe_run_deferral_frame envW 3 11 ⟨["A_fwd"], [], [], []⟩ initState ⟨1, "gB"⟩ "B_fwd"
      (by decide)⟩

theorem scan_agree (hmap : List (Nat × Nat)) (fp : String) :
    ∀ (gs : List Graph) (acc : List Nat),
      (∀ acc', specScanGms hmap fp gs acc = .reachedCur acc' →
        innerGmLoop hmap fp gs ⟨acc, true, false⟩ = ⟨acc', true, true⟩) ∧
      (specScanGms hmap fp gs acc = .missingHandle →
        ∃ accx, innerGmLoop hmap fp gs ⟨acc, true, false⟩ = ⟨accx, false, false⟩) ∧
      (∀ acc', specScanGms hmap fp gs acc = .passed acc' →
        innerGmLoop hmap fp gs ⟨acc, true, false⟩ = ⟨acc', true, false⟩) := by
  intro gs
  induction gs with
  | nil =>
    intro acc
    refine ⟨?_, ?_, ?_⟩
    · intro acc' hs
      simp [specScanGms] at hs
    · intro hs
      simp [specScanGms] at hs
    · intro acc' hs
      simp only [specScanGms, GmScan.passed.injEq] at hs
      subst hs
      rfl
  | cons g gs ihg =>
    intro acc
    by_cases hfp : g.graphStr = fp
    · refine ⟨?_, ?_, ?_⟩
      · intro acc' hs
        simp only [specScanGms, hfp, if_true, eq_self_iff_true,
          GmScan.reachedCur.injEq] at hs
        subst hs
        simp [innerGmLoop, hfp]
      · intro hs
        simp [specScanGms, hfp] at hs
      · intro acc' hs
        simp [specScanGms, hfp] at hs
    · cases hhd : hmap.lookup g.gid with
      | none =>
        refine ⟨?_, ?_, ?_⟩
        · intro acc' hs
          simp [specScanGms, hfp, hhd] at hs
        · intro _
          refine ⟨acc, ?_⟩
          simp [innerGmLoop, hfp, hhd]
        · intro acc' hs
          simp [specScanGms, hfp, hhd] at hs
      | some hd =>
        have hcode : innerGmLoop hmap fp (g :: gs) ⟨acc, true, false⟩ =
            innerGmLoop hmap fp gs ⟨acc ++ [hd], true, false⟩ := by
          simp [innerGmLoop, hfp, hhd]
        have hspec : specScanGms hmap fp (g :: gs) acc =
            specScanGms hmap fp gs (acc ++ [hd]) := by
          simp [specScanGms, hfp, hhd]
        refine ⟨?_, ?_, ?_⟩
        · intro acc' hs
          rw [hspec] at hs
          rw [hcode]
          exact (ihg (acc ++ [hd])).1 acc' hs
        · intro hs
          rw [hspec] at hs
          rw [hcode]
          exact (ihg (acc ++ [hd])).2.1 hs
        · intro acc' hs
          rw [hspec] at hs
          rw [hcode]
          exact (ihg (acc ++ [hd])).2.2 acc' hs

theorem walk_agree (registry : List (String × List Graph)) (hmap : List (Nat × Nat))
    (fp : String) :
    ∀ (sched : List String) (acc : List Nat),
      (∀ acc', specWalkSchedule registry hmap fp sched acc = some (.success acc') →
        walkLoop registry hmap fp sched ⟨acc, true, false⟩ = ⟨acc', true, true⟩) ∧
      (specWalkSchedule registry hmap fp sched acc = some .failure →
        (walkLoop registry hmap fp sched ⟨acc, true, false⟩).allCreated = false) := by
  intro sched
  induction sched with
  | nil =>
    intro acc
    constructor
    · intro acc' hs
      simp [specWalkSchedule] at hs
    · intro hs
      simp [specWalkSchedule] at hs
  | cons seg rest IH =>
    intro acc
    cases hreg : registry.lookup seg with
    | none =>
      constructor
      · intro acc' hs
        unfold specWalkSchedule at hs
        rw [hreg] at hs
        simp at hs
      · intro _
        simp [walkLoop, hreg]
    | some gms =>
      cases hscan : specScanGms hmap fp gms acc with
      | reachedCur acc1 =>
        have hcode := (scan_agree hmap fp gms acc).1 acc1 hscan
        constructor
        · intro acc' hs
          simp only [specWalkSchedule, hreg, hscan] at hs
          simp only [Option.some.injEq, AdmissionOutcome.success.injEq] at hs
          subst hs
          simp [walkLoop, hreg, hcode]
        · intro hs
          simp only [specWalkSchedule, hreg, hscan] at hs
          simp at hs
      | missingHandle =>
        obtain ⟨accx, hcode⟩ := (scan_agree hmap fp gms acc).2.1 hscan
        constructor
        · intro acc' hs
          simp only [specWalkSchedule, hreg, hscan] at hs
          simp at hs
        · intro _
          simp [walkLoop, hreg, hcode]
      | passed acc1 =>
        have hcode := (scan_agree hmap fp gms acc).2.2 acc1 hscan
        constructor
        · intro acc' hs
          simp only [specWalkSchedule, hreg, hscan] at hs
          have := (IH acc1).1 acc' hs
          simp only [walkLoop, hreg, hcode]
          simpa using this
        · intro hs
          simp only [specWalkSchedule, hreg, hscan] at hs
          have := (IH acc1).2 hs
          simp only [walkLoop, hreg, hcode]
          simpa using this

/-- C1: the admission-control walk of `maybe_run` follows the specification's
walk over the schedule from its start — a scheduled segment with no registry
entries fails admission; a registered graph matching the current invocation
by structural fingerprint succeeds with all previously accumulated handles as
preceding; a registered graph without a handle fails; any other registered
graph's handle is accumulated — and on success `schedule()` is invoked on
every accumulated preceding handle in accumulation order and then on the
current handle, whose placeholder outputs are returned. -/
theorem maybe_run_admission_walk (newHandleId : Nat) (st : SchedulerState)
    (gm : Graph) (cur_segment_name : String) :
    (∀ acc, specWalkSchedule (ensureHandle newHandleId st gm).1.segment_to_gms_map
        (ensureHandle newHandleId st gm).1.gm_to_handle_map gm.graphStr
        (ensureHandle newHandleId st gm).1.schedule [] = some (.success acc) →
      (maybe_run newHandleId st gm cur_segment_name).delayed = false ∧
      (maybe_run newHandleId st gm cur_segment_name).calls =
        acc ++ [(ensureHandle newHandleId st gm).2] ∧
      (maybe_run newHandleId st gm cur_segment_name).output =
        (ensureHandle newHandleId st gm).2) ∧
    (specWalkSchedule (ensureHandle newHandleId st gm).1.segment_to_gms_map
        (ensureHandle newHandleId st gm).1.gm_to_handle_map gm.graphStr
        (ensureHandle newHandleId st gm).1.schedule [] = some .failure →
      (maybe_run newHandleId st gm cur_segment_name).delayed = true) := by
  constructor
  · intro acc hs
    have hw := (walk_agree (ensureHandle newHandleId st gm).1.segment_to_gms_map
      (ensureHandle newHandleId st gm).1.gm_to_handle_map gm.graphStr
      (ensureHandle newHandleId st gm).1.schedule []).1 acc hs
    simp only [maybe_run]
    rw [hw]
    simp
  · intro hs
    have hw := (walk_agree (ensureHandle newHandleId st gm).1.segment_to_gms_map
      (ensureHandle newHandleId st gm).1.gm_to_handle_map gm.graphStr
      (ensureHandle newHandleId st gm).1.schedule []).2 hs
    simp [maybe_run, hw]

theorem maybe_run_admission_walk_witness :
    specWalkSchedule (ensureHandle 11 stW gmW).1.segment_to_gms_map
      (ensureHandle 11 stW gmW).1.gm_to_handle_map gmW.graphStr
      (ensureHandle 11 stW gmW).1.schedule [] = some (.success [10]) ∧
    ((maybe_run 11 stW gmW "B_fwd").delayed = false ∧
      (maybe_run 11 stW gmW "B_fwd").calls = [10] ++ [(ensureHandle 11 stW gmW).2] ∧
      (maybe_run 11 stW gmW "B_fwd").output = (ensureHandle 11 stW gmW).2) :=
  ⟨by decide, (maybe_run_admission_walk 11 stW gmW "B_fwd").1 [10] (by decide)⟩

theorem innerGmLoop_exhaust (hmap : List (Nat × Nat)) (fp : String) :
    ∀ (gms : List Graph) (acc : List Nat),
      (∀ g ∈ gms, g.graphStr ≠ fp ∧ ∃ hd, hmap.lookup g.gid = some hd) →
      innerGmLoop hmap fp gms ⟨acc, true, false⟩ =
        ⟨acc ++ gms.filterMap (fun g => hmap.lookup g.gid), true, false⟩ := by
  intro gms
  induction gms with
  | nil =>
    intro acc _
    simp [innerGmLoop]
  | cons g gs ih =>
    intro acc hall
    obtain ⟨hfp, hd, hhd⟩ := hall g (by simp)
    have hcode : innerGmLoop hmap fp (g :: gs) ⟨acc, true, false⟩ =
        innerGmLoop hmap fp gs ⟨acc ++ [hd], true, false⟩ := by
      simp [innerGmLoop, hfp, hhd]
    rw [hcode, ih (acc ++ [hd]) (fun g hg => hall g (by simp [hg]))]
    simp [List.filterMap_cons, hhd]

theorem walkLoop_exhaust (registry : List (String × List Graph))
    (hmap : List (Nat × Nat)) (fp : String) :
    ∀ (sched : List String) (acc : List Nat),
      (∀ seg ∈ sched, ∃ gms, registry.lookup seg = some gms ∧
        ∀ g ∈ gms, g.graphStr ≠ fp ∧ ∃ hd, hmap.lookup g.gid = some hd) →
      walkLoop registry hmap fp sched ⟨acc, true, false⟩ =
        ⟨acc ++ allScheduledHandles registry hmap sched, true, false⟩ := by
  intro sched
  induction sched with
  | nil =>
    intro acc _
    simp [walkLoop, allScheduledHandles]
  | cons seg rest ih =>
    intro acc hall
    obtain ⟨gms, hreg, hgms⟩ := hall seg (by simp)
    have hinner := innerGmLoop_exhaust hmap fp gms acc hgms
    simp only [walkLoop, hreg, hinner]
    rw [if_neg (by simp)]
    rw [ih (acc ++ gms.filterMap fun g => hmap.lookup g.gid)
      (fun s hs => hall s (by simp [hs]))]
    simp [allScheduledHandles, hreg, List.append_assoc]

/-- C10: when the admission walk exhausts the entire schedule without matching
the current invocation — in particular whenever the current segment name does
not appear in the schedule — and every scheduled segment has registry entries
whose graphs all have handles, the invocation is admitted: `schedule()` is
invoked on every handle registered under every scheduled segment, in schedule
and registration order, and then on the current handle. -/
theorem maybe_run_exhausted_schedule_admits (newHandleId : Nat)
    (st : SchedulerState) (gm : Graph) (cur_segment_name : String)
    (hall : ∀ seg ∈ (ensureHandle newHandleId st gm).1.schedule, ∃ gms,
      (ensureHandle newHandleId st gm).1.segment_to_gms_map.lookup seg = some gms ∧
      ∀ g ∈ gms, g.graphStr ≠ gm.graphStr ∧
        ∃ hd, (ensureHandle newHandleId st gm).1.gm_to_handle_map.lookup g.gid = some hd) :
    (maybe_run newHandleId st gm cur_segment_name).delayed = false ∧
    (maybe_run newHandleId st gm cur_segment_name).calls =
      allScheduledHandles (ensureHandle newHandleId st gm).1.segment_to_gms_map
        (ensureHandle newHandleId st gm).1.gm_to_handle_map
        (ensureHandle newHandleId st gm).1.schedule ++
        [(ensureHandle newHandleId st gm).2] := by
  have hw := walkLoop_exhaust (ensureHandle newHandleId st gm).1.segment_to_gms_map
    (ensureHandle newHandleId st gm).1.gm_to_handle_map gm.graphStr
    (ensureHandle newHandleId st gm).1.schedule [] hall
  simp only [List.nil_append] at hw
  simp only [maybe_run]
  rw [hw]
  simp

theorem maybe_run_exhausted_schedule_admits_witness :
    (∀ seg ∈ (ensureHandle 11 stX gmW).1.schedule, ∃ gms,
      (ensureHandle 11 stX gmW).1.segment_to_gms_map.lookup seg = some gms ∧
      ∀ g ∈ gms, g.graphStr ≠ gmW.graphStr ∧
        ∃ hd, (ensureHandle 11 stX gmW).1.gm_to_handle_map.lookup g.gid = some hd) ∧
    ((maybe_run 11 stX gmW "B_fwd").delayed = false ∧
      (maybe_run 11 stX gmW "B_fwd").calls =
        allScheduledHandles (ensureHandle 11 stX gmW).1.segment_to_gms_map
          (ensureHandle 11 stX gmW).1.gm_to_handle_map
          (ensureHandle 11 stX gmW).1.schedule ++ [(ensureHandle 11 stX gmW).2]) := by
  have hall : ∀ seg ∈ (ensureHandle 11 stX gmW).1.schedule, ∃ gms,
      (ensureHandle 11 stX gmW).1.segment_to_gms_map.lookup seg = some gms ∧
      ∀ g ∈ gms, g.graphStr ≠ gmW.graphStr ∧
        ∃ hd, (ensureHandle 11 stX gmW).1.gm_to_handle_map.lookup g.gid = some hd := by
    intro seg hseg
    have hseg' : seg ∈ ["A_fwd"] := hseg
    have heq : seg = "A_fwd" := by simpa using hseg'
    subst heq
    refine ⟨[⟨0, "gA"⟩], by decide, ?_⟩
    intro g hg
    have hg' : g ∈ [(⟨0, "gA"⟩ : Graph)] := hg
    have heq : g = ⟨0, "gA"⟩ := by simpa using hg'
    subst heq
    exact ⟨by decide, 10, by decide⟩
  exact ⟨hall, maybe_run_exhausted_schedule_admits 11 stX gmW "B_fwd" hall⟩

theorem scanDown_found (order schedule : List String) :
    ∀ (n : Nat) seg idx k, scanDown order schedule n = .found seg idx k →
      k < n ∧ seg = schedule.getD k "" ∧ seg ∈ order ∧
        idx = order.indexOf seg ∧ idx < k := by
  intro n
  induction n with
  | zero =>
    intro seg idx k h
    simp [scanDown] at h
  | succ m ih =>
    intro seg idx k h
    simp only [scanDown] at h
    by_cases hm : schedule.getD m "" ∈ order
    · rw [if_pos hm] at h
      by_cases hidx : order.indexOf (schedule.getD m "") < m
      · rw [if_pos hidx] at h
        injection h with h1 h2 h3
        subst h1
        subst h2
        subst h3
        exact ⟨Nat.lt_succ_self m, rfl, hm, rfl, hidx⟩
      · rw [if_neg hidx] at h
        obtain ⟨h1, h2, h3, h4, h5⟩ := ih seg idx k h
        exact ⟨Nat.lt_succ_of_lt h1, h2, h3, h4, h5⟩
    · rw [if_neg hm] at h
      simp at h

theorem scanDown_nothingFound (order schedule : List String) :
    ∀ (n : Nat), scanDown order schedule n = .nothingFound →
      ∀ k, k < n → schedule.getD k "" ∈ order ∧
        k ≤ order.indexOf (schedule.getD k "") := by
  intro n
  induction n with
  | zero =>
    intro _ k hk
    omega
  | succ m ih =>
    intro h k hk
    simp only [scanDown] at h
    by_cases hm : schedule.getD m "" ∈ order
    · rw [if_pos hm] at h
      by_cases hidx : order.indexOf (schedule.getD m "") < m
      · rw [if_pos hidx] at h
        simp at h
      · rw [if_neg hidx] at h
        rcases Nat.lt_or_ge k m with hkm | hkm
        · exact ih h k hkm
        · have hke : k = m := by omega
          subst hke
          exact ⟨hm, by omega⟩
    · rw [if_neg hm] at h
      simp at h

theorem scanDown_ne_crash (order schedule : List String) :
    ∀ (n : Nat), (∀ k, k < n → schedule.getD k "" ∈ order) →
      scanDown order schedule n ≠ .crash := by
  intro n
  induction n with
  | zero =>
    intro _
    simp [scanDown]
  | succ m ih =>
    intro hmem
    simp only [scanDown]
    rw [if_pos (hmem m (Nat.lt_succ_self m))]
    by_cases hidx : order.indexOf (schedule.getD m "") < m
    · rw [if_pos hidx]
      simp
    · rw [if_neg hidx]
      exact ih fun k hk => hmem k (Nat.lt_succ_of_lt hk)

theorem noEarly_eq :
    ∀ (s o : List String), s.Nodup → s.Perm o →
      (∀ k, k < s.length → k ≤ o.indexOf (s.getD k "")) → s = o := by
  intro s
  induction s with
  | nil =>
    intro o _ hp _
    exact (hp.symm.eq_nil).symm
  | cons a s ih =>
    intro o hnd hp hne
    cases o with
    | nil => exact absurd hp.eq_nil (by simp)
    | cons b o' =>
      have hb : b ∈ a :: s := hp.mem_iff.2 (by simp)
      obtain ⟨j, hj, hgj⟩ := List.mem_iff_getElem.1 hb
      have hidx0 : (b :: o').indexOf ((a :: s).getD j "") = 0 := by
        rw [List.getD_eq_getElem _ _ hj, hgj]
        exact List.indexOf_cons_self b o'
      have hj0 : j = 0 := by
        have := hne j hj
        rw [hidx0] at this
        omega
      subst hj0
      have hab : a = b := by simpa using hgj
      subst hab
      have hp' : s.Perm o' := hp.cons_inv
      have hnd' : s.Nodup := (List.nodup_cons.1 hnd).2
      have hna : a ∉ s := (List.nodup_cons.1 hnd).1
      have hne' : ∀ k, k < s.length → k ≤ o'.indexOf (s.getD k "") := by
        intro k hk
        have hx : s.getD k "" ∈ s := by
          rw [List.getD_eq_getElem _ _ hk]
          exact List.getElem_mem hk
        have hxa : a ≠ s.getD k "" := fun hcon => hna (hcon ▸ hx)
        have hstep := hne (k + 1) (by simpa using Nat.succ_lt_succ hk)
        rw [List.getD_cons_succ, List.indexOf_cons_ne o' hxa] at hstep
        omega
      rw [ih o' hnd' hp' hne']

theorem scan_progress (s o : List String) (hnd : s.Nodup) (hp : s.Perm o)
    (hne : s ≠ o) : ∃ seg idx k, scanRev o s = .found seg idx k := by
  cases hscan : scanRev o s with
  | crash =>
    exfalso
    unfold scanRev at hscan
    apply scanDown_ne_crash o s s.length ?_ hscan
    intro k hk
    rw [List.getD_eq_getElem _ _ hk]
    exact hp.mem_iff.1 (List.getElem_mem hk)
  | nothingFound =>
    exfalso
    unfold scanRev at hscan
    apply hne
    apply noEarly_eq s o hnd hp
    intro k hk
    exact (scanDown_nothingFound o s s.length hscan k hk).2
  | found seg idx k => exact ⟨seg, idx, k, rfl⟩

theorem bestEffortAux_done :
    ∀ (n : Nat) (s o : List String) (deps : List (String × Option String × String)),
      s.length ≤ n → s.Nodup → s.Perm o →
      ∃ d, bestEffortAux s o deps = .done d := by
  intro n
  induction n with
  | zero =>
    intro s o deps hlen hnd hp
    have hs : s = [] := List.length_eq_zero.1 (Nat.le_zero.1 hlen)
    subst hs
    have ho : o = [] := hp.symm.eq_nil
    subst ho
    exact ⟨deps, by rw [bestEffortAux, if_pos rfl]⟩
  | succ m ih =>
    intro s o deps hlen hnd hp
    by_cases hso : s = o
    · exact ⟨deps, by rw [bestEffortAux, if_pos hso]⟩
    · obtain ⟨seg, idx, k, hscan⟩ := scan_progress s o hnd hp hso
      have hfound := scanDown_found o s s.length seg idx k hscan
      obtain ⟨hkn, hsegd, hsego, hidx, hik⟩ := hfound
      have hlen_eq : s.length = o.length := hp.length_eq
      have hidxlen : idx + 1 < o.length := by omega
      have hoidx : idx < o.length := by omega
      have hdepsome : o[idx + 1]? = some o[idx + 1] := List.getElem?_eq_getElem hidxlen
      have hond : o.Nodup := hp.nodup_iff.1 hnd
      have hsegs : seg ∈ s := by
        rw [hsegd, List.getD_eq_getElem _ _ hkn]
        exact List.getElem_mem hkn
      have hsegat : o[idx] = seg := by
        subst hidx
        subst hsegd
        exact List.getElem_indexOf hoidx
      have hdep_ne : o[idx + 1] ≠ seg := by
        intro hc
        rw [← hsegat] at hc
        have : idx + 1 = idx := (hond.getElem_inj_iff).1 hc
        omega
      have hdeps : o[idx + 1] ∈ s := hp.mem_iff.2 (List.getElem_mem hidxlen)
      have hdep_er_s : o[idx + 1] ∈ s.erase seg :=
        (List.mem_erase_of_ne hdep_ne).2 hdeps
      have hdep_er_o : o[idx + 1] ∈ o.erase seg :=
        (List.mem_erase_of_ne hdep_ne).2 (List.getElem_mem hidxlen)
      have hp' : ((s.erase seg).erase (o[idx + 1])).Perm ((o.erase seg).erase (o[idx + 1])) :=
        (hp.erase seg).erase (o[idx + 1])
      have hnd' : ((s.erase seg).erase (o[idx + 1])).Nodup :=
        List.Nodup.erase _ (List.Nodup.erase _ hnd)
      have hlen' : ((s.erase seg).erase (o[idx + 1])).length ≤ m := by
        rw [List.length_erase_of_mem hdep_er_s, List.length_erase_of_mem hsegs]
        omega
      obtain ⟨d, hd⟩ := ih _ _
        (deps ++ [(seg, (if 1 ≤ idx then o[idx - 1]? else none), o[idx + 1])])
        hlen' hnd' hp'
      refine ⟨d, ?_⟩
      rw [bestEffortAux, if_neg hso, hscan]
      simp only [hdepsome]
      rw [dif_pos hsegs, dif_pos hdep_er_s, if_pos hsego, if_pos hdep_er_o]
      exact hd

theorem perm_of_nodup_length_set (schedule order : List String)
    (hnd : schedule.Nodup) (hlen : schedule.length = order.length)
    (hset : ∀ x, x ∈ schedule ↔ x ∈ order) : schedule.Perm order := by
  have htf : schedule.toFinset = order.toFinset := by
    ext x
    simp only [List.mem_toFinset]
    exact hset x
  have hond : order.Nodup := by
    have h1 := List.card_toFinset order
    have h2 := List.card_toFinset schedule
    rw [← htf] at h1
    rw [List.dedup_eq_self.2 hnd] at h2
    have hc1 : order.dedup.length = order.length := by omega
    exact List.dedup_eq_self.1 (List.Sublist.eq_of_length (List.dedup_sublist order) hc1)
  exact List.perm_of_nodup_nodup_toFinset_eq hnd hond htf

theorem bestEffort_stuck :
    bestEffortAux ["X", "Y", "Y"] ["X", "X", "Y"] [] = .divergent := by
  have hscan : scanRev ["X", "X", "Y"] ["X", "Y", "Y"] = .nothingFound := by decide
  rw [bestEffortAux, if_neg (by decide), hscan]

/-- C8 counterexample: on the equal-length, set-equal input pair
`schedule = ["X", "Y", "Y"]`, `recorded = ["X", "X", "Y"]` the reverse scan of
`find_delayed_seg_dependencies_best_effort` finds no segment executed earlier
than its scheduled position although the two lists differ, so the while-loop
body removes nothing and the source loops forever on an unchanged state
(modelled as `divergent`): the process does not reach the exhausted-or-aligned
state the claim describes. -/
theorem find_delayed_divergent_counterexample :
    find_delayed_seg_dependencies_best_effort ["X", "Y", "Y"] ["X", "X", "Y"] =
      .divergent := by
  unfold find_delayed_seg_dependencies_best_effort
  rw [if_pos (by decide)]
  exact bestEffort_stuck

/-- C8 (amended): for every pair of equal-length, set-equal sequences of
segment names in which the schedule contains no duplicate name, the
best-effort reverse scan terminates: repeatedly finding, from the end, the
latest segment executed earlier than its scheduled position, pairing it with
the segment recorded immediately after it, and removing both, always reaches
the state where the two residual sequences are exhausted or aligned. -/
theorem find_delayed_terminates (schedule order : List String)
    (hnd : schedule.Nodup) (hlen : schedule.length = order.length)
    (hset : sameSet schedule order = true) :
    ∃ d, find_delayed_seg_dependencies_best_effort schedule order = .done d := by
  have hperm := perm_of_nodup_length_set schedule order hnd hlen ((sameSet_iff _ _).1 hset)
  unfold find_delayed_seg_dependencies_best_effort
  rw [if_pos hlen]
  exact bestEffortAux_done schedule.length schedule order [] le_rfl hnd hperm

theorem find_delayed_terminates_witness :
    (List.Nodup ["A", "B", "C"] ∧
      List.length ["A", "B", "C"] = List.length ["B", "C", "A"] ∧
      sameSet ["A", "B", "C"] ["B", "C", "A"] = true) ∧
    ∃ d, find_delayed_seg_dependencies_best_effort ["A", "B", "C"] ["B", "C", "A"] =
      .done d :=
  ⟨⟨by decide, by decide, by decide⟩,
    find_delayed_terminates ["A", "B", "C"] ["B", "C", "A"]
      (by decide) (by decide) (by decide)⟩

/-- C7 counterexample: `debug()` invoked with schedule `["X", "Y", "Y"]` and
execution record `["X", "__unnamed_0", "X", "Y"]` (filtered record
`["X", "X", "Y"]`: equal length and equal as sets, but different in sequence)
calls `find_delayed_seg_dependencies_best_effort`, whose while-loop repeats an
identical state forever, so no diagnostic report is ever raised. -/
theorem debug_divergent_counterexample :
    debug ["X", "Y", "Y"] ["X", "__unnamed_0", "X", "Y"] = .divergent := by
  have ho : get_recorded_execution_order ["X", "__unnamed_0", "X", "Y"] =
      ["X", "X", "Y"] := by decide
  simp only [debug, ho]
  rw [if_neg (by decide), if_pos (by decide)]
  unfold find_delayed_seg_dependencies_best_effort
  rw [if_pos (by decide), bestEffort_stuck]

/-- C7 (amended): `debug()` raises a diagnostic report whenever invoked,
provided the best-effort reverse scan it may trigger terminates: whenever the
filtered execution record equals the schedule exactly it raises the
no-violation debug report, and whenever the schedule contains no duplicate
segment name it raises either the mismatch report or a debug report. When the
schedule has duplicate names and differs from the filtered record in sequence
while matching in length and as a set, the scan can loop forever and no
report is raised. -/
theorem debug_always_raises_amended (schedule rec : List String) :
    (get_recorded_execution_order rec = schedule →
      debug schedule rec = .debugReport false) ∧
    (schedule.Nodup →
      debug schedule rec = .mismatchReport ∨
        ∃ b, debug schedule rec = .debugReport b) := by
  constructor
  · intro heq
    have hss : sameSet schedule schedule = true := (sameSet_iff _ _).2 fun _ => Iff.rfl
    simp only [debug, heq]
    rw [if_neg (by simp [hss]), if_neg (by simp)]
  · intro hnodup
    by_cases hc : schedule.length ≠ (get_recorded_execution_order rec).length ∨
        sameSet schedule (get_recorded_execution_order rec) = false
    · left
      simp only [debug]
      rw [if_pos hc]
    · right
      have h12 := not_or.1 hc
      have hlen : schedule.length = (get_recorded_execution_order rec).length :=
        not_ne_iff.1 h12.1
      have hss : sameSet schedule (get_recorded_execution_order rec) = true := by
        cases hb : sameSet schedule (get_recorded_execution_order rec) with
        | false => exact absurd hb h12.2
        | true => rfl
      by_cases heq : schedule = get_recorded_execution_order rec
      · refine ⟨false, ?_⟩
        simp only [debug]
        rw [if_neg hc, if_neg (not_ne_iff.2 heq)]
      · have hperm := perm_of_nodup_length_set _ _ hnodup hlen ((sameSet_iff _ _).1 hss)
        obtain ⟨d, hd⟩ := bestEffortAux_done schedule.length schedule _ [] le_rfl hnodup hperm
        refine ⟨true, ?_⟩
        simp only [debug]
        rw [if_neg hc, if_pos heq]
        unfold find_delayed_seg_dependencies_best_effort
        rw [if_pos hlen, hd]

theorem debug_always_raises_amended_witness :
    (get_recorded_execution_order ["A", "B"] = ["A", "B"] ∧
      debug ["A", "B"] ["A", "B"] = .debugReport false) ∧
    (List.Nodup ["B", "A"] ∧
      (debug ["B", "A"] ["A", "B"] = .mismatchReport ∨
        ∃ b, debug ["B", "A"] ["A", "B"] = .debugReport b)) :=
  ⟨⟨by decide, (debug_always_raises_amended ["A", "B"] ["A", "B"]).1 (by decide)⟩,
    ⟨by decide, (debug_always_raises_amended ["B", "A"] ["A", "B"]).2 (by decide)⟩⟩

theorem materializeOuts_event (outs : List Nat) (s : SchedState) :
    (materializeOuts outs s).event = s.event := rfl

theorem materializeOuts_execCount (outs : List Nat) (s : SchedState) :
    (materializeOuts outs s).execCount = s.execCount := rfl

theorem materializeOuts_record (outs : List Nat) (s : SchedState) :
    (materializeOuts outs s).record = s.record := rfl

theorem materializeOuts_violation (outs : List Nat) (s : SchedState) :
    (materializeOuts outs s).violation = s.violation := rfl

theorem materializeOuts_mat_mono (outs : List Nat) (s : SchedState) (p : Nat)
    (hm : s.materialized p = true) :
    (materializeOuts outs s).materialized p = true := by
  simp only [materializeOuts]
  by_cases hp : p ∈ outs <;> simp [hp, hm]

theorem wait_for_completion_cases (env : Env) (h : Nat) (s : SchedState) :
    (wait_for_completion env h s).1 = s ∨
    (wait_for_completion env h s).1 = materializeOuts (env.handles h).outs s := by
  unfold wait_for_completion
  by_cases h1 : s.event h = false
  · rw [if_pos h1]
    exact Or.inl rfl
  · rw [if_neg h1]
    by_cases h2 : s.outsSet h = false
    · rw [if_pos h2]
      exact Or.inl rfl
    · rw [if_neg h2]
      exact Or.inr rfl

theorem wfc_event (env : Env) (h : Nat) (s : SchedState) :
    ((wait_for_completion env h s).1).event = s.event := by
  rcases wait_for_completion_cases env h s with he | he <;> rw [he] <;> rfl

theorem wfc_execCount (env : Env) (h : Nat) (s : SchedState) :
    ((wait_for_completion env h s).1).execCount = s.execCount := by
  rcases wait_for_completion_cases env h s with he | he <;> rw [he] <;> rfl

theorem wfc_violation (env : Env) (h : Nat) (s : SchedState) :
    ((wait_for_completion env h s).1).violation = s.violation := by
  rcases wait_for_completion_cases env h s with he | he <;> rw [he] <;> rfl

theorem wfc_mat_mono (env : Env) (h : Nat) (s : SchedState) (p : Nat)
    (hm : s.materialized p = true) :
    ((wait_for_completion env h s).1).materialized p = true := by
  rcases wait_for_completion_cases env h s with he | he <;> rw [he]
  · exact hm
  · exact materializeOuts_mat_mono _ s p hm

theorem wfc_success_mat (env : Env) (h : Nat) (s : SchedState) (p : Nat)
    (hok : (wait_for_completion env h s).2 = true) (hp : p ∈ (env.handles h).outs) :
    ((wait_for_completion env h s).1).materialized p = true := by
  unfold wait_for_completion at hok ⊢
  by_cases h1 : s.event h = false
  · rw [if_pos h1] at hok
    simp at hok
  · rw [if_neg h1] at hok ⊢
    by_cases h2 : s.outsSet h = false
    · rw [if_pos h2] at hok
      simp at hok
    · rw [if_neg h2]
      simp [materializeOuts, hp]

theorem sched_mono (env : Env) :
    ∀ (n : Nat),
      (∀ h s,
        (∀ h0, s.event h0 = true → ((schedule env n h s).1).event h0 = true) ∧
        (∀ p, s.materialized p = true →
          ((schedule env n h s).1).materialized p = true) ∧
        (∀ h0, s.event h0 = true →
          ((schedule env n h s).1).execCount h0 = s.execCount h0)) ∧
      (∀ args s,
        (∀ h0, s.event h0 = true →
          ((wait_until_materialized env n args s).1).event h0 = true) ∧
        (∀ p, s.materialized p = true →
          ((wait_until_materialized env n args s).1).materialized p = true) ∧
        (∀ h0, s.event h0 = true →
          ((wait_until_materialized env n args s).1).execCount h0 = s.execCount h0)) := by
  intro n
  induction n with
  | zero =>
    constructor
    · intro h s
      by_cases hev : s.event h = true
      · simp only [schedule, if_pos hev]
        exact ⟨fun _ he => he, fun _ hm => hm, fun _ _ => trivial⟩
      · simp only [schedule, if_neg hev]
        exact ⟨fun _ he => he, fun _ hm => hm, fun _ _ => trivial⟩
    · intro args s
      cases args with
      | nil =>
        simp only [wait_until_materialized]
        exact ⟨fun _ he => he, fun _ hm => hm, fun _ _ => trivial⟩
      | cons a rest =>
        simp only [wait_until_materialized]
        exact ⟨fun _ he => he, fun _ hm => hm, fun _ _ => trivial⟩
  | succ m ihm =>
    obtain ⟨ihS, ihW⟩ := ihm
    constructor
    · intro h s
      by_cases hev : s.event h = true
      · simp only [schedule, if_pos hev]
        exact ⟨fun _ he => he, fun _ hm => hm, fun _ _ => trivial⟩
      · have hstep := ihW (env.handles h).args
          { s with event := Function.update s.event h true }
        simp only [schedule, if_neg hev]
        refine ⟨?_, ?_, ?_⟩
        · intro h0 he
          have hs1 : (Function.update s.event h true) h0 = true := by
            by_cases hh : h0 = h
            · subst hh
              simp
            · rw [Function.update_noteq hh]
              exact he
          split
          · exact hstep.1 h0 hs1
          · exact hstep.1 h0 hs1
        · intro p hm
          split
          · exact hstep.2.1 p hm
          · exact hstep.2.1 p hm
        · intro h0 he
          have hne : h0 ≠ h := fun hc => hev (hc ▸ he)
          have hs1 : (Function.update s.event h true) h0 = true := by
            rw [Function.update_noteq hne]
            exact he
          split
          · simp only [Function.update_noteq hne]
            exact hstep.2.2 h0 hs1
          · exact hstep.2.2 h0 hs1
    · intro args s
      cases args with
      | nil =>
        simp only [wait_until_materialized]
        exact ⟨fun _ he => he, fun _ hm => hm, fun _ _ => trivial⟩
      | cons a rest =>
        cases a with
        | concrete =>
          simp only [wait_until_materialized]
          exact ihW rest s
        | placeholder p =>
          simp only [wait_until_materialized]
          by_cases hmp : s.materialized p = true
          · rw [if_pos hmp]
            exact ihW rest s
          · rw [if_neg hmp]
            refine ⟨?_, ?_, ?_⟩
            · intro h0 he
              split
              · split
                · apply (ihW rest _).1
                  rw [wfc_event]
                  exact (ihS (env.owner p) s).1 h0 he
                · rw [wfc_event]
                  exact (ihS (env.owner p) s).1 h0 he
              · exact (ihS (env.owner p) s).1 h0 he
            · intro q hm
              split
              · split
                · apply (ihW rest _).2.1
                  exact wfc_mat_mono env (env.owner p) _ q ((ihS (env.owner p) s).2.1 q hm)
                · exact wfc_mat_mono env (env.owner p) _ q ((ihS (env.owner p) s).2.1 q hm)
              · exact (ihS (env.owner p) s).2.1 q hm
            · intro h0 he
              have hev1 : ((schedule env m (env.owner p) s).1).event h0 = true :=
                (ihS (env.owner p) s).1 h0 he
              have hev2 : ((wait_for_completion env (env.owner p)
                  (schedule env m (env.owner p) s).1).1).event h0 = true := by
                rw [wfc_event]
                exact hev1
              split
              · split
                · rw [(ihW rest _).2.2 h0 hev2, wfc_execCount]
                  exact (ihS (env.owner p) s).2.2 h0 he
                · rw [wfc_execCount]
                  exact (ihS (env.owner p) s).2.2 h0 he
              · exact (ihS (env.owner p) s).2.2 h0 he

theorem wfc_atMostOnce (env : Env) (h : Nat) (s : SchedState) (hI : AtMostOnce s) :
    AtMostOnce (wait_for_completion env h s).1 := by
  intro h0
  constructor
  · rw [wfc_execCount]
    exact (hI h0).1
  · intro hfe
    rw [wfc_event] at hfe
    rw [wfc_execCount]
    exact (hI h0).2 hfe

theorem sched_at_most_once (env : Env) :
    ∀ (n : Nat),
      (∀ h s, AtMostOnce s → AtMostOnce (schedule env n h s).1) ∧
      (∀ args s, AtMostOnce s → AtMostOnce (wait_until_materialized env n args s).1) := by
  intro n
  induction n with
  | zero =>
    constructor
    · intro h s hI
      by_cases hev : s.event h = true
      · simp only [schedule, if_pos hev]
        exact hI
      · simp only [schedule, if_neg hev]
        exact hI
    · intro args s hI
      cases args with
      | nil =>
        simp only [wait_until_materialized]
        exact hI
      | cons a rest =>
        simp only [wait_until_materialized]
        exact hI
  | succ m ihm =>
    obtain ⟨ihS, ihW⟩ := ihm
    constructor
    · intro h s hI
      by_cases hev : s.event h = true
      · simp only [schedule, if_pos hev]
        exact hI
      · simp only [schedule, if_neg hev]
        have hI1 : AtMostOnce { s with event := Function.update s.event h true } := by
          intro h0
          by_cases hh : h0 = h
          · subst hh
            refine ⟨(hI h0).1, ?_⟩
            intro hfalse
            simp only [Function.update_same] at hfalse
            exact Bool.noConfusion hfalse
          · refine ⟨(hI h0).1, ?_⟩
            intro hfalse
            simp only [Function.update_noteq hh] at hfalse
            exact (hI h0).2 hfalse
        have hW := ihW (env.handles h).args _ hI1
        split
        · next hok =>
          intro h0
          by_cases hh : h0 = h
          · subst hh
            have hs1ev : ({ s with event := Function.update s.event h0 true }).event h0 = true := by
              simp [Function.update_same]
            have hXev := ((sched_mono env m).2 (env.handles h0).args _).1 h0 hs1ev
            have hfr := ((sched_mono env m).2 (env.handles h0).args _).2.2 h0 hs1ev
            have hsf : s.event h0 = false := by
              cases hb : s.event h0 with
              | true => exact absurd hb hev
              | false => rfl
            have hzero : s.execCount h0 = 0 := (hI h0).2 hsf
            have hx0 : ((wait_until_materialized env m (env.handles h0).args
                { s with event := Function.update s.event h0 true }).1).execCount h0 = 0 := by
              rw [hfr]
              exact hzero
            constructor
            · simp only [Function.update_same]
              rw [hx0]
            · intro hfev
              exfalso
              have hfev' : ((wait_until_materialized env m (env.handles h0).args
                  { s with event := Function.update s.event h0 true }).1).event h0 = false := hfev
              rw [hXev] at hfev'
              exact Bool.noConfusion hfev'
          · constructor
            · simp only [Function.update_noteq hh]
              exact (hW h0).1
            · intro hfev
              have hfev' : ((wait_until_materialized env m (env.handles h).args
                  { s with event := Function.update s.event h true }).1).event h0 = false := hfev
              simp only [Function.update_noteq hh]
              exact (hW h0).2 hfev'
        · next hok =>
          exact hW
    · intro args s hI
      cases args with
      | nil =>
        simp only [wait_until_materialized]
        exact hI
      | cons a rest =>
        cases a with
        | concrete =>
          simp only [wait_until_materialized]
          exact ihW rest s hI
        | placeholder p =>
          simp only [wait_until_materialized]
          by_cases hmp : s.materialized p = true
          · rw [if_pos hmp]
            exact ihW rest s hI
          · rw [if_neg hmp]
            split
            · split
              · exact ihW rest _ (wfc_atMostOnce env (env.owner p) _ (ihS (env.owner p) s hI))
              · exact wfc_atMostOnce env (env.owner p) _ (ihS (env.owner p) s hI)
            · exact ihS (env.owner p) s hI

theorem wait_post (env : Env) (hwf : env.wf) :
    ∀ (n : Nat) (args : List Arg) (s : SchedState),
      (wait_until_materialized env n args s).2 = true →
      ∀ p, Arg.placeholder p ∈ args →
        ((wait_until_materialized env n args s).1).materialized p = true := by
  intro n
  induction n with
  | zero =>
    intro args s hok p hp
    cases args with
    | nil => simp at hp
    | cons a rest =>
      simp only [wait_until_materialized] at hok
      simp at hok
  | succ m ihm =>
    intro args s hok p hp
    cases args with
    | nil => simp at hp
    | cons a rest =>
      cases a with
      | concrete =>
        simp only [wait_until_materialized] at hok ⊢
        have hp' : Arg.placeholder p ∈ rest := by
          rcases List.mem_cons.1 hp with hpa | hp'
          · exact absurd hpa (by simp)
          · exact hp'
        exact ihm rest s hok p hp'
      | placeholder q =>
        simp only [wait_until_materialized] at hok ⊢
        by_cases hmq : s.materialized q = true
        · rw [if_pos hmq] at hok ⊢
          rcases List.mem_cons.1 hp with hpa | hp'
          · injection hpa with hpq
            subst hpq
            exact ((sched_mono env m).2 rest s).2.1 p hmq
          · exact ihm rest s hok p hp'
        · rw [if_neg hmq] at hok ⊢
          by_cases hok1 : (schedule env m (env.owner q) s).2 = true
          · rw [if_pos hok1] at hok ⊢
            by_cases hok2 : (wait_for_completion env (env.owner q)
                (schedule env m (env.owner q) s).1).2 = true
            · rw [if_pos hok2] at hok ⊢
              rcases List.mem_cons.1 hp with hpa | hp'
              · injection hpa with hpq
                subst hpq
                apply ((sched_mono env m).2 rest _).2.1
                exact wfc_success_mat env (env.owner p) _ p hok2 (hwf p)
              · exact ihm rest _ hok p hp'
            · rw [if_neg hok2] at hok
              simp at hok
          · rw [if_neg hok1] at hok
            simp at hok

theorem sched_violation (env : Env) (hwf : env.wf) :
    ∀ (n : Nat),
      (∀ h s, s.violation = false → ((schedule env n h s).1).violation = false) ∧
      (∀ args s, s.violation = false →
        ((wait_until_materialized env n args s).1).violation = false) := by
  intro n
  induction n with
  | zero =>
    constructor
    · intro h s hv
      by_cases hev : s.event h = true
      · simp only [schedule, if_pos hev]
        exact hv
      · simp only [schedule, if_neg hev]
        exact hv
    · intro args s hv
      cases args with
      | nil =>
        simp only [wait_until_materialized]
        exact hv
      | cons a rest =>
        simp only [wait_until_materialized]
        exact hv
  | succ m ihm =>
    obtain ⟨ihS, ihW⟩ := ihm
    constructor
    · intro h s hv
      by_cases hev : s.event h = true
      · simp only [schedule, if_pos hev]
        exact hv
      · simp only [schedule, if_neg hev]
        have hv1 : ({ s with event := Function.update s.event h true } : SchedState).violation
            = false := hv
        have hW := ihW (env.handles h).args _ hv1
        split
        · next hok =>
          have hargs : argsMaterialized env h
              { (wait_until_materialized env m (env.handles h).args
                  { s with event := Function.update s.event h true }).1 with
                record := record_execution ((wait_until_materialized env m
                  (env.handles h).args
                  { s with event := Function.update s.event h true }).1).record
                  (env.handles h).segment_name } = true := by
            unfold argsMaterialized
            rw [List.all_eq_true]
            intro a ha
            cases a with
            | concrete => rfl
            | placeholder p =>
              exact wait_post env hwf m (env.handles h).args _ hok p ha
          simp [hW]
          exact hargs
        · next hok =>
          exact hW
    · intro args s hv
      cases args with
      | nil =>
        simp only [wait_until_materialized]
        exact hv
      | cons a rest =>
        cases a with
        | concrete =>
          simp only [wait_until_materialized]
          exact ihW rest s hv
        | placeholder p =>
          simp only [wait_until_materialized]
          by_cases hmp : s.materialized p = true
          · rw [if_pos hmp]
            exact ihW rest s hv
          · rw [if_neg hmp]
            split
            · split
              · apply ihW rest _
                rw [wfc_violation]
                exact ihS (env.owner p) s hv
              · rw [wfc_violation]
                exact ihS (env.owner p) s hv
            · exact ihS (env.owner p) s hv

/-- C2: for every handle, the wrapped callable is never executed before every
placeholder among the handle's input arguments is materialized. The
`violation` monitor is set at the instant a callable runs with an
unmaterialized placeholder argument; in a well-formed environment it stays
clear across any sequence of `schedule()` invocations, because `schedule()`
waits for materialization of all arguments (recursively scheduling and
awaiting their owning handles) before invoking the callable. -/
theorem schedule_waits_for_args (env : Env) (hwf : env.wf)
    (calls : List (Nat × Nat)) (s : SchedState) (hv : s.violation = false) :
    (scheduleSeq env calls s).violation = false := by
  induction calls generalizing s with
  | nil => exact hv
  | cons c cs ih =>
    simp only [scheduleSeq, List.foldl_cons]
    exact ih _ ((sched_violation env hwf c.1).1 c.2 s hv)

theorem schedule_waits_for_args_witness :
    envW.wf ∧ initState.violation = false ∧
    (scheduleSeq envW [(2, 0)] initState).violation = false :=
  ⟨envW_wf, rfl, schedule_waits_for_args envW envW_wf [(2, 0)] initState rfl⟩

/-- C3: calling `schedule()` on a handle whose completion token is already set
is a no-op that returns the state unchanged, and consequently, across any
sequence of `schedule()` invocations (including repeated and re-entrant
calls) starting from the initial state, each handle's wrapped callable
executes at most once. -/
theorem schedule_idempotent_at_most_once :
    (∀ (env : Env) (fuel h : Nat) (s : SchedState),
      s.event h = true → schedule env fuel h s = (s, true)) ∧
    (∀ (env : Env) (calls : List (Nat × Nat)) (h : Nat),
      (scheduleSeq env calls initState).execCount h ≤ 1) := by
  constructor
  · intro env fuel h s hev
    cases fuel with
    | zero => simp only [schedule, if_pos hev]
    | succ m => simp only [schedule, if_pos hev]
  · intro env calls h
    have hInit : AtMostOnce initState := by
      intro h0
      exact ⟨by simp [initState], fun _ => rfl⟩
    have aux : ∀ (cs : List (Nat × Nat)) (s : SchedState), AtMostOnce s →
        AtMostOnce (scheduleSeq env cs s) := by
      intro cs
      induction cs with
      | nil =>
        intro s hI
        exact hI
      | cons c cs ih =>
        intro s hI
        exact ih _ ((sched_at_most_once env c.1).1 c.2 s hI)
    exact (aux calls initState hInit h).1

theorem schedule_idempotent_at_most_once_witness :
    ({ initState with event := fun _ => true } : SchedState).event 0 = true ∧
    schedule envW 3 0 { initState with event := fun _ => true } =
      ({ initState with event := fun _ => true }, true) ∧
    (scheduleSeq envW [(2, 0), (2, 0)] initState).execCount 0 ≤ 1 :=
  ⟨rfl, schedule_idempotent_at_most_once.1 envW 3 0 _ rfl,
    schedule_idempotent_at_most_once.2 envW [(2, 0), (2, 0)] 0⟩

end TorchLazy
